import Mathlib

/-!
Verification of the itinerary-to-calendar converter `generate_ics_content`
of src/app.py (lines 23-70): a shallow embedding of the day-marker scanner
(the regex `Day (\d+)[:\s]+(.*?)(?=Day \d+|$)` with DOTALL under findall),
of the calendar-day arithmetic of `datetime + timedelta(days = k)` (which
raises OverflowError outside years 1-9999, modelled as `none`), and of the
event construction, together with theorems about the claimed properties.
The embedding restricts the digit and whitespace classes of the pattern and
of `str.strip` to their ASCII members.
-/

namespace TravelIcs

/-- ASCII decimal digit: the characters of the pattern's digit class. -/
def isAsciiDigit (c : Char) : Bool := '0' ≤ c && c ≤ '9'

/-- ASCII whitespace: the characters of the pattern's whitespace class and
the characters removed by strip. -/
def isSpaceChar (c : Char) : Bool :=
  c = ' ' || c = '\t' || c = '\n' || c = '\r' || c = '\x0b' || c = '\x0c'

/-- The separator class `[:\s]` of the day pattern: a colon or whitespace. -/
def isSepChar (c : Char) : Bool := c = ':' || isSpaceChar c

/-- Numeric value of a digit string: how `int` reads the captured digits. -/
def digitsToNat (ds : List Char) : Nat :=
  ds.foldl (fun acc c => acc * 10 + (c.toNat - '0'.toNat)) 0

/-- `str.strip`: drop leading and trailing whitespace. -/
def stripChars (s : List Char) : List Char :=
  ((s.dropWhile isSpaceChar).reverse.dropWhile isSpaceChar).reverse

/-- Gregorian leap-year rule used by Python's datetime. -/
def isLeapYear (y : Nat) : Bool := (y % 4 == 0 && y % 100 != 0) || y % 400 == 0

/-- Length of a month in a given year. -/
def daysInMonth (y m : Nat) : Nat :=
  if m = 2 then (if isLeapYear y then 29 else 28)
  else if m = 4 || m = 6 || m = 9 || m = 11 then 30
  else 31

/-- A calendar date, the `.date()` part of a Python datetime. -/
structure Date where
  year : Nat
  month : Nat
  day : Nat
deriving DecidableEq, Repr

/-- The range datetime supports: years 1 to 9999, real month and day bounds. -/
def Date.isValid (d : Date) : Bool :=
  1 ≤ d.year && d.year ≤ 9999 && 1 ≤ d.month && d.month ≤ 12 &&
  1 ≤ d.day && d.day ≤ daysInMonth d.year d.month

/-- The calendar successor of a date. -/
def nextDay (d : Date) : Date :=
  if d.day < daysInMonth d.year d.month then ⟨d.year, d.month, d.day + 1⟩
  else if d.month < 12 then ⟨d.year, d.month + 1, 1⟩
  else ⟨d.year + 1, 1, 1⟩

/-- The calendar predecessor of a date. -/
def prevDay (d : Date) : Date :=
  if 1 < d.day then ⟨d.year, d.month, d.day - 1⟩
  else if 1 < d.month then ⟨d.year, d.month - 1, daysInMonth d.year (d.month - 1)⟩
  else ⟨d.year - 1, 12, 31⟩

/-- Iterated successor. -/
def addDaysNat : Date → Nat → Date
  | d, 0 => d
  | d, n + 1 => addDaysNat (nextDay d) n

/-- Iterated predecessor. -/
def subDaysNat : Date → Nat → Date
  | d, 0 => d
  | d, n + 1 => subDaysNat (prevDay d) n

/-- `datetime + timedelta(days = k)`: calendar day arithmetic; `none` models
the OverflowError raised when the result leaves the supported range. -/
def addTimedelta (d : Date) (k : Int) : Option Date :=
  let r := if 0 ≤ k then addDaysNat d k.toNat else subDaysNat d (-k).toNat
  if r.isValid then some r else none

/-- Strict calendar order on dates, lexicographic on year, month, day. -/
def Date.before (a b : Date) : Prop :=
  a.year < b.year ∨ (a.year = b.year ∧
    (a.month < b.month ∨ (a.month = b.month ∧ a.day < b.day)))

instance (a b : Date) : Decidable (a.before b) := by
  unfold Date.before; infer_instance

/-- The lookahead `Day \d+` holds: the text begins with the literal Day, a
space, and at least one digit. -/
def startsMarkerLookahead : List Char → Bool
  | c1 :: c2 :: c3 :: c4 :: c5 :: _ =>
    c1 = 'D' && c2 = 'a' && c3 = 'y' && c4 = ' ' && isAsciiDigit c5
  | _ => false

/-- The lazy capture `(.*?)` with DOTALL up to the lookahead `(?=Day \d+|$)`:
consume until the next day marker starts, the end of the text, or the
position before a final newline (where `$` also matches). Returns the
captured content and the rest of the text. -/
def takeContent : List Char → List Char × List Char
  | [] => ([], [])
  | c :: cs =>
    if startsMarkerLookahead (c :: cs) then ([], c :: cs)
    else if c = '\n' && cs.isEmpty then ([], [c])
    else
      let p := takeContent cs
      (c :: p.1, p.2)

/-- One attempt of the pattern anchored at the start of the text: the
literal `Day `, at least one digit (the capture is the whole digit run,
since the character after it must be a separator), at least one separator
(the run taken is maximal, the class being greedy and disjoint from every
position where the lookahead can hold), then the lazy content. Returns the
two captures and the rest of the text after the match. -/
def tryMatch (s : List Char) : Option (List Char × List Char × List Char) :=
  match s with
  | c1 :: c2 :: c3 :: c4 :: rest =>
    if c1 = 'D' ∧ c2 = 'a' ∧ c3 = 'y' ∧ c4 = ' ' then
      let ds := rest.takeWhile isAsciiDigit
      let rest1 := rest.dropWhile isAsciiDigit
      if ds.isEmpty then none
      else
        let seps := rest1.takeWhile isSepChar
        let rest2 := rest1.dropWhile isSepChar
        if seps.isEmpty then none
        else
          let p := takeContent rest2
          some (ds, p.1, p.2)
    else none
  | _ => none

/-- `findall`: scan left to right for non-overlapping matches, moving one
character on failure and resuming after the captured content on success
(the lookahead is zero-width). The fuel only bounds the recursion; the
length of the text is enough fuel, as every step consumes a character. -/
def findDaysAux : Nat → List Char → List (List Char × List Char)
  | 0, _ => []
  | _ + 1, [] => []
  | fuel + 1, c :: cs =>
    match tryMatch (c :: cs) with
    | some (ds, content, rest) => (ds, content) :: findDaysAux fuel rest
    | none => findDaysAux fuel cs

/-- All matches of the day pattern in the text, in order of appearance. -/
def findDays (s : List Char) : List (List Char × List Char) := findDaysAux s.length s

/-- One calendar event: summary, description, and the all-day start and end
dates. The dtstamp of the source is the wall clock at generation time and is
passed to the serializer separately. -/
structure CalEvent where
  summary : String
  description : String
  dtstart : Date
  dtend : Date
deriving DecidableEq, Repr

/-- The per-match loop body: title from the parsed day number, stripped
content, event date `startDate + (N - 1)` days; `none` when the date
addition leaves the supported range (OverflowError in the source). -/
def mkDayEvent (start : Date) (ds content : List Char) : Option CalEvent :=
  let n := digitsToNat ds
  match addTimedelta start ((n : Int) - 1) with
  | some d => some ⟨"Day " ++ toString n ++ " Itinerary", String.mk (stripChars content), d, d⟩
  | none => none

/-- The no-match branch: a single event holding the whole input text,
dated at the start date. -/
def fallbackEvent (start : Date) (text : String) : CalEvent :=
  ⟨"Travel Itinerary", text, start, start⟩

/-- The loop over the matches; a failing date addition aborts the whole
conversion, as the uncaught exception does in the source. -/
def buildDayEvents (start : Date) : List (List Char × List Char) → Option (List CalEvent)
  | [] => some []
  | (ds, content) :: rest =>
    match mkDayEvent start ds content, buildDayEvents start rest with
    | some e, some es => some (e :: es)
    | _, _ => none

/-- The event list `generate_ics_content` builds before serialization. -/
def buildEvents (text : String) (start : Date) : Option (List CalEvent) :=
  match findDays text.data with
  | [] => some [fallbackEvent start text]
  | days => buildDayEvents start days

/-- Modelled from the spec: the field-escaping rule of the output calendar
text format (the icalendar library is not part of src): a backslash,
semicolon, comma, or newline in a text value is written as a two-character
escape sequence. -/
def escapeTextChar (c : Char) : List Char :=
  if c = '\\' then ['\\', '\\']
  else if c = ';' then ['\\', ';']
  else if c = ',' then ['\\', ',']
  else if c = '\n' then ['\\', 'n']
  else [c]

/-- Modelled from the spec: escaping of a whole text value. -/
def escapeText (s : List Char) : List Char := (s.map escapeTextChar).flatten

/-- Modelled from the spec: how a standard-compliant reader un-escapes a
text value: a backslash followed by n or N denotes a newline, a backslash
followed by any other character denotes that character. -/
def unescapeText : List Char → List Char
  | [] => []
  | [c] => [c]
  | c1 :: c2 :: cs =>
    if c1 = '\\' then (if c2 = 'n' ∨ c2 = 'N' then '\n' else c2) :: unescapeText cs
    else c1 :: unescapeText (c2 :: cs)

/-- Modelled from the spec: standard line folding of the output format: a
content line longer than 74 characters is broken into chunks separated by a
line break plus one space. -/
def foldLine (s : List Char) : List Char :=
  if s.length ≤ 74 then s
  else s.take 74 ++ '\r' :: '\n' :: ' ' :: foldLine (s.drop 74)
termination_by s.length
decreasing_by simp; omega

/-- Modelled from the spec: how a standard-compliant reader unfolds folded
lines: a line break followed by a space or tab is removed. -/
def unfoldChars : List Char → List Char
  | [] => []
  | [c] => [c]
  | [c1, c2] => [c1, c2]
  | c1 :: c2 :: c3 :: cs =>
    if c1 = '\r' ∧ c2 = '\n' ∧ (c3 = ' ' ∨ c3 = '\t') then unfoldChars cs
    else c1 :: unfoldChars (c2 :: c3 :: cs)

/-- The line terminator of the output format. -/
def crlf : List Char := ['\r', '\n']

/-- Modelled from the spec: serialize logical content lines, folding each
and terminating each with a line break. -/
def renderLines (ls : List (List Char)) : List Char :=
  (ls.map (fun l => foldLine l ++ crlf)).flatten

/-- The same lines joined without folding; the reader's unfolding pass
reduces the serialized form to this. -/
def joinedLines (ls : List (List Char)) : List Char :=
  (ls.map (fun l => l ++ crlf)).flatten

/-- Modelled from the spec: how a reader splits an unfolded stream back
into content lines at each line break. -/
def splitLinesAux : List Char → List Char → List (List Char)
  | acc, [] => if acc.isEmpty then [] else [acc.reverse]
  | acc, [c] => [(c :: acc).reverse]
  | acc, c1 :: c2 :: cs =>
    if c1 = '\r' ∧ c2 = '\n' then acc.reverse :: splitLinesAux [] cs
    else splitLinesAux (c1 :: acc) (c2 :: cs)

/-- One decimal digit character. -/
def digitChar : Nat → Char
  | 0 => '0' | 1 => '1' | 2 => '2' | 3 => '3' | 4 => '4'
  | 5 => '5' | 6 => '6' | 7 => '7' | 8 => '8' | _ => '9'

/-- Numeric value of a digit character. -/
def charVal (c : Char) : Nat := c.toNat - '0'.toNat

/-- Modelled from the spec: the all-day date value, four year digits then
two month digits then two day digits. -/
def dateChars (d : Date) : List Char :=
  [digitChar (d.year / 1000 % 10), digitChar (d.year / 100 % 10),
   digitChar (d.year / 10 % 10), digitChar (d.year % 10),
   digitChar (d.month / 10 % 10), digitChar (d.month % 10),
   digitChar (d.day / 10 % 10), digitChar (d.day % 10)]

/-- Modelled from the spec: how a reader parses an eight-digit date value. -/
def parseDate8 (l : List Char) : Option Date :=
  match l with
  | [y1, y2, y3, y4, m1, m2, d1, d2] =>
    if isAsciiDigit y1 && isAsciiDigit y2 && isAsciiDigit y3 && isAsciiDigit y4 &&
       isAsciiDigit m1 && isAsciiDigit m2 && isAsciiDigit d1 && isAsciiDigit d2 then
      some ⟨((charVal y1 * 10 + charVal y2) * 10 + charVal y3) * 10 + charVal y4,
            charVal m1 * 10 + charVal m2, charVal d1 * 10 + charVal d2⟩
    else none
  | _ => none

/-- Modelled from the spec: the content lines of one event block, in the
order the source adds the fields: summary, description, all-day start and
end dates, generation timestamp. -/
def eventLines (now : List Char) (e : CalEvent) : List (List Char) :=
  ["BEGIN:VEVENT".data,
   "SUMMARY:".data ++ escapeText e.summary.data,
   "DESCRIPTION:".data ++ escapeText e.description.data,
   "DTSTART;VALUE=DATE:".data ++ dateChars e.dtstart,
   "DTEND;VALUE=DATE:".data ++ dateChars e.dtend,
   "DTSTAMP:".data ++ now,
   "END:VEVENT".data]

/-- Modelled from the spec: the content lines of the whole document: the
header with the fixed product identifier and version, one block per event,
and the closing line. -/
def docLines (now : List Char) (evs : List CalEvent) : List (List Char) :=
  "BEGIN:VCALENDAR".data ::
  "PRODID:-//AI Travel Planner//github.com//".data ::
  "VERSION:2.0".data ::
  ((evs.map (eventLines now)).flatten ++ ["END:VCALENDAR".data])

/-- Modelled from the spec: the canonical byte encoding of the document. -/
def serializeCal (now : List Char) (evs : List CalEvent) : List Char :=
  renderLines (docLines now evs)

/-- The whole converter: the event list of the source followed by the
spec-modelled serialization; the timestamp is the frozen wall clock. -/
def generate_ics_content (text : String) (start : Date) (now : List Char) :
    Option (List Char) :=
  (buildEvents text start).map (serializeCal now)

/-- What a reader recovers of one event. -/
structure ParsedEvent where
  summary : List Char
  description : List Char
  dtstart : Date
  dtend : Date
deriving DecidableEq, Repr

/-- Strip an expected name from the front of a line. -/
def matchPfx : List Char → List Char → Option (List Char)
  | [], l => some l
  | _ :: _, [] => none
  | p :: ps, c :: cs => if c = p then matchPfx ps cs else none

/-- Modelled from the spec: a standard-compliant reader of the event
blocks: each block yields one event with un-escaped summary and
description and parsed dates. -/
def parseEventsAux : List (List Char) → Option (List ParsedEvent)
  | [l] => if l = "END:VCALENDAR".data then some [] else none
  | lb :: ls :: ld :: lst :: le :: lstamp :: lend :: rest =>
    if lb = "BEGIN:VEVENT".data ∧ lend = "END:VEVENT".data then
      match matchPfx "SUMMARY:".data ls, matchPfx "DESCRIPTION:".data ld,
            matchPfx "DTSTART;VALUE=DATE:".data lst,
            matchPfx "DTEND;VALUE=DATE:".data le,
            matchPfx "DTSTAMP:".data lstamp with
      | some s, some d, some st, some en, some _ =>
        match parseDate8 st, parseDate8 en, parseEventsAux rest with
        | some dst, some den, some evs =>
          some (⟨unescapeText s, unescapeText d, dst, den⟩ :: evs)
        | _, _, _ => none
      | _, _, _, _, _ => none
    else none
  | _ => none

/-- Modelled from the spec: a standard-compliant reader of the whole
document: unfold, split into lines, check the header, read the events. -/
def parseCalChars (s : List Char) : Option (List ParsedEvent) :=
  match splitLinesAux [] (unfoldChars s) with
  | lb :: lp :: lv :: rest =>
    if lb = "BEGIN:VCALENDAR".data ∧
       lp = "PRODID:-//AI Travel Planner//github.com//".data ∧
       lv = "VERSION:2.0".data then parseEventsAux rest
    else none
  | _ => none

/-! ### Helper lemmas about the event construction -/

theorem mkDayEvent_some (start : Date) (ds content : List Char) (e : CalEvent)
    (h : mkDayEvent start ds content = some e) :
    ∃ d, addTimedelta start ((digitsToNat ds : Int) - 1) = some d ∧
      e = ⟨"Day " ++ toString (digitsToNat ds) ++ " Itinerary",
           String.mk (stripChars content), d, d⟩ := by
  simp only [mkDayEvent] at h
  rcases ha : addTimedelta start ((digitsToNat ds : Int) - 1) with _ | d <;> rw [ha] at h
  · exact absurd h (by simp)
  · exact ⟨d, rfl, by injection h with h; exact h.symm⟩

theorem mkDayEvent_isSome (start : Date) (ds content : List Char) :
    (mkDayEvent start ds content).isSome
      = (addTimedelta start ((digitsToNat ds : Int) - 1)).isSome := by
  simp only [mkDayEvent]
  rcases addTimedelta start ((digitsToNat ds : Int) - 1) with _ | d <;> rfl

theorem buildDayEvents_cons (start : Date) (ds content : List Char)
    (rest : List (List Char × List Char)) (evs : List CalEvent)
    (h : buildDayEvents start ((ds, content) :: rest) = some evs) :
    ∃ e es, mkDayEvent start ds content = some e ∧
      buildDayEvents start rest = some es ∧ evs = e :: es := by
  simp only [buildDayEvents] at h
  rcases h1 : mkDayEvent start ds content with _ | e <;> rw [h1] at h
  · exact absurd h (by simp)
  · rcases h2 : buildDayEvents start rest with _ | es <;> rw [h2] at h
    · exact absurd h (by simp)
    · exact ⟨e, es, rfl, rfl, by injection h with h; exact h.symm⟩

theorem buildDayEvents_length (start : Date) :
    ∀ (days : List (List Char × List Char)) (evs : List CalEvent),
      buildDayEvents start days = some evs → evs.length = days.length := by
  intro days
  induction days with
  | nil => intro evs h; simp only [buildDayEvents] at h; injection h with h; simp [← h]
  | cons p rest ih =>
    intro evs h
    obtain ⟨ds, content⟩ := p
    obtain ⟨e, es, _, h2, h3⟩ := buildDayEvents_cons start ds content rest evs h
    subst h3; simp [ih es h2]

theorem buildDayEvents_get (start : Date) :
    ∀ (days : List (List Char × List Char)) (evs : List CalEvent),
      buildDayEvents start days = some evs →
      ∀ (i : Nat) (ds content : List Char), days[i]? = some (ds, content) →
        ∃ e, mkDayEvent start ds content = some e ∧ evs[i]? = some e := by
  intro days
  induction days with
  | nil => intro evs _ i ds content hi; simp at hi
  | cons p rest ih =>
    intro evs h i ds content hi
    obtain ⟨ds0, c0⟩ := p
    obtain ⟨e, es, h1, h2, h3⟩ := buildDayEvents_cons start ds0 c0 rest evs h
    subst h3
    cases i with
    | zero =>
      simp only [List.getElem?_cons_zero, Option.some.injEq, Prod.mk.injEq] at hi
      obtain ⟨hds, hc⟩ := hi
      subst hds; subst hc
      exact ⟨e, h1, by simp⟩
    | succ j =>
      simp only [List.getElem?_cons_succ] at hi ⊢
      exact ih es h2 j ds content hi

theorem buildDayEvents_mem (start : Date) :
    ∀ (days : List (List Char × List Char)) (evs : List CalEvent),
      buildDayEvents start days = some evs →
      ∀ e ∈ evs, ∃ p ∈ days, mkDayEvent start p.1 p.2 = some e := by
  intro days
  induction days with
  | nil =>
    intro evs h e he
    simp only [buildDayEvents] at h
    injection h with h
    subst h
    simp at he
  | cons p rest ih =>
    intro evs h e he
    obtain ⟨ds0, c0⟩ := p
    obtain ⟨e0, es, h1, h2, h3⟩ := buildDayEvents_cons start ds0 c0 rest evs h
    subst h3
    rcases List.mem_cons.mp he with he | he
    · subst he
      exact ⟨(ds0, c0), List.mem_cons_self _ _, h1⟩
    · obtain ⟨q, hq, hq2⟩ := ih es h2 e he
      exact ⟨q, List.mem_cons_of_mem _ hq, hq2⟩

theorem buildDayEvents_maps (start : Date) :
    ∀ (days : List (List Char × List Char)) (evs : List CalEvent),
      buildDayEvents start days = some evs →
      evs.map (fun e => e.summary)
        = days.map (fun p => "Day " ++ toString (digitsToNat p.1) ++ " Itinerary") ∧
      evs.map (fun e => some e.dtstart)
        = days.map (fun p => addTimedelta start ((digitsToNat p.1 : Int) - 1)) := by
  intro days
  induction days with
  | nil =>
    intro evs h
    simp only [buildDayEvents] at h
    injection h with h
    subst h
    simp
  | cons p rest ih =>
    intro evs h
    obtain ⟨ds0, c0⟩ := p
    obtain ⟨e0, es, h1, h2, h3⟩ := buildDayEvents_cons start ds0 c0 rest evs h
    subst h3
    obtain ⟨d, hd, he⟩ := mkDayEvent_some start ds0 c0 e0 h1
    obtain ⟨ihs, ihd⟩ := ih es h2
    subst he
    simp [ihs, ihd, hd]

theorem buildDayEvents_isSome (start : Date) :
    ∀ days : List (List Char × List Char),
      (buildDayEvents start days).isSome = true ↔
        ∀ p ∈ days, (addTimedelta start ((digitsToNat p.1 : Int) - 1)).isSome = true := by
  intro days
  induction days with
  | nil => simp [buildDayEvents]
  | cons p rest ih =>
    obtain ⟨ds0, c0⟩ := p
    have hmk := mkDayEvent_isSome start ds0 c0
    simp only [buildDayEvents]
    constructor
    · intro h q hq
      rcases h1 : mkDayEvent start ds0 c0 with _ | e <;> rw [h1] at h hmk
      · rcases h2 : buildDayEvents start rest with _ | es <;> rw [h2] at h <;> simp at h
      · rcases h2 : buildDayEvents start rest with _ | es <;> rw [h2] at h ih
        · simp at h
        · rcases List.mem_cons.mp hq with hq | hq
          · subst hq; simpa using hmk.symm
          · exact ih.mp rfl q hq
    · intro h
      have h1 : (mkDayEvent start ds0 c0).isSome = true := by
        rw [hmk]; exact h (ds0, c0) (List.mem_cons_self _ _)
      have h2 : (buildDayEvents start rest).isSome = true :=
        ih.mpr (fun q hq => h q (List.mem_cons_of_mem _ hq))
      rcases Option.isSome_iff_exists.mp h1 with ⟨e, he⟩
      rcases Option.isSome_iff_exists.mp h2 with ⟨es, hes⟩
      rw [he, hes]
      rfl

theorem buildEvents_of_matches (text : String) (start : Date)
    (h : findDays text.data ≠ []) :
    buildEvents text start = buildDayEvents start (findDays text.data) := by
  unfold buildEvents
  rcases hfd : findDays text.data with _ | ⟨p, rest⟩
  · exact absurd hfd h
  · rfl

theorem subDaysNat_one (d : Date) : subDaysNat d 1 = prevDay d := rfl

theorem prevDay_before (d : Date) (hv : d.isValid = true) : (prevDay d).before d := by
  unfold Date.isValid at hv
  simp only [Bool.and_eq_true, decide_eq_true_eq] at hv
  unfold prevDay Date.before
  split_ifs <;> simp <;> omega

/-! ### Claim theorems -/

/-- C1: every day-marker match yields exactly one all-day event: the i-th
match (digits, content) yields the i-th event, titled Day N Itinerary for
the captured integer N, described by the captured text with surrounding
whitespace stripped, and dated startDate + (N - 1) days by real calendar
arithmetic, which carries across month and year boundaries. Stated for
conversions that complete; the out-of-range case is settled under C4. -/
theorem C1_match_events (text : String) (start : Date) (evs : List CalEvent)
    (h : buildEvents text start = some evs) (hne : findDays text.data ≠ [])
    (i : Nat) (ds content : List Char)
    (hi : (findDays text.data)[i]? = some (ds, content)) :
    ∃ d, addTimedelta start ((digitsToNat ds : Int) - 1) = some d ∧
      evs[i]? = some ⟨"Day " ++ toString (digitsToNat ds) ++ " Itinerary",
        String.mk (stripChars content), d, d⟩ := by
  rw [buildEvents_of_matches text start hne] at h
  obtain ⟨e, he, hei⟩ := buildDayEvents_get start (findDays text.data) evs h i ds content hi
  obtain ⟨d, hd, hee⟩ := mkDayEvent_some start ds content e he
  exact ⟨d, hd, by rw [hei, hee]⟩

/-- C1 witness, at the month and year boundary of the spec example:
start date 2024-12-31 and the marker Day 2 give the event date 2025-01-01. -/
theorem C1_match_events_witness :
    ∃ d, addTimedelta ⟨2024, 12, 31⟩ ((digitsToNat ['2'] : Int) - 1) = some d ∧
      ([⟨"Day 2 Itinerary", "Paris", ⟨2025, 1, 1⟩, ⟨2025, 1, 1⟩⟩] : List CalEvent)[0]?
        = some ⟨"Day " ++ toString (digitsToNat ['2']) ++ " Itinerary",
            String.mk (stripChars "Paris".data), d, d⟩ :=
  C1_match_events "Day 2: Paris" ⟨2024, 12, 31⟩
    [⟨"Day 2 Itinerary", "Paris", ⟨2025, 1, 1⟩, ⟨2025, 1, 1⟩⟩]
    (by decide) (by decide) 0 ['2'] "Paris".data (by decide)

/-- C2: the output document holds one event per day-marker match found, in
whatever order and multiplicity the matches occur, and exactly one event
when no match is found. Stated for conversions that complete; the
out-of-range case is settled under C4. -/
theorem C2_event_count (text : String) (start : Date) (evs : List CalEvent)
    (h : buildEvents text start = some evs) :
    evs.length = if findDays text.data = [] then 1 else (findDays text.data).length := by
  rcases hfd : findDays text.data with _ | ⟨p, rest⟩
  · unfold buildEvents at h
    rw [hfd] at h
    injection h with h
    simp [← h, hfd]
  · rw [buildEvents_of_matches text start (by rw [hfd]; simp)] at h
    rw [hfd] at h
    simp [buildDayEvents_length start _ _ h]

/-- C2 witness on the two-marker spec example. -/
theorem C2_event_count_witness :
    ([⟨"Day 1 Itinerary", "Arrive and explore.", ⟨2024, 6, 1⟩, ⟨2024, 6, 1⟩⟩,
      ⟨"Day 2 Itinerary", "Museum visit.", ⟨2024, 6, 2⟩, ⟨2024, 6, 2⟩⟩] : List CalEvent).length
      = if findDays "Day 1: Arrive and explore.\nDay 2: Museum visit.".data = []
        then 1 else (findDays "Day 1: Arrive and explore.\nDay 2: Museum visit.".data).length :=
  C2_event_count "Day 1: Arrive and explore.\nDay 2: Museum visit." ⟨2024, 6, 1⟩
    [⟨"Day 1 Itinerary", "Arrive and explore.", ⟨2024, 6, 1⟩, ⟨2024, 6, 1⟩⟩,
     ⟨"Day 2 Itinerary", "Museum visit.", ⟨2024, 6, 2⟩, ⟨2024, 6, 2⟩⟩]
    (by decide)

/-- C3 counterexample: for the marker-free input consisting of x surrounded
by spaces, the fallback event's description is the input text as given, and
that differs from the trimmed input the claim requires. -/
theorem C3_counterexample :
    buildEvents " x " ⟨2024, 6, 1⟩
      = some [⟨"Travel Itinerary", " x ", ⟨2024, 6, 1⟩, ⟨2024, 6, 1⟩⟩] ∧
    (" x " : String) ≠ String.mk (stripChars " x ".data) := by
  constructor
  · decide
  · decide

/-- C3 amended: for every input text with no day-marker match (including
the empty string), the conversion produces exactly one event titled Travel
Itinerary whose description equals the original input text unaltered (not
trimmed) and whose date equals the start date. -/
theorem C3_fallback (text : String) (start : Date)
    (h : findDays text.data = []) :
    buildEvents text start = some [⟨"Travel Itinerary", text, start, start⟩] := by
  unfold buildEvents
  rw [h]
  rfl

/-- C3 witness on the empty string: one fallback event, empty description. -/
theorem C3_fallback_witness :
    buildEvents "" ⟨2024, 6, 1⟩
      = some [⟨"Travel Itinerary", "", ⟨2024, 6, 1⟩, ⟨2024, 6, 1⟩⟩] :=
  C3_fallback "" ⟨2024, 6, 1⟩ (by decide)

/-- C4 counterexample: with the well-formed start date 9999-12-31 the input
Day 2: x drives the date addition past the supported range, so the
conversion raises (returns none) instead of producing any event, although
the input text is not degenerate and the start date is a valid date. -/
theorem C4_counterexample :
    Date.isValid ⟨9999, 12, 31⟩ = true ∧
    generate_ics_content "Day 2: x" ⟨9999, 12, 31⟩ [] = none := by
  constructor
  · decide
  · decide

/-- C4 amended: the conversion succeeds exactly when every matched day
number keeps startDate + (N - 1) days inside the supported calendar range
(years 1 to 9999); in particular marker-free input, however degenerate,
always succeeds through the fallback (the condition is vacuous), and a
conversion never fails for any other reason. -/
theorem C4_success_iff (text : String) (start : Date) (now : List Char) :
    (generate_ics_content text start now).isSome = true ↔
      ∀ p ∈ findDays text.data,
        (addTimedelta start ((digitsToNat p.1 : Int) - 1)).isSome = true := by
  have hmap : (generate_ics_content text start now).isSome = (buildEvents text start).isSome := by
    unfold generate_ics_content
    rcases buildEvents text start with _ | evs <;> rfl
  rw [hmap]
  rcases hfd : findDays text.data with _ | ⟨p, rest⟩
  · constructor
    · intro _ q hq
      simp at hq
    · intro _
      unfold buildEvents
      rw [hfd]
      rfl
  · rw [buildEvents_of_matches text start (by rw [hfd]; simp), hfd]
    exact buildDayEvents_isSome start (p :: rest)

/-- C5: the events appear in the output in the order the markers appear in
the text, not in numeric order: the list of summaries and the list of event
dates are the match list's images in order of appearance. Stated for
conversions that complete; the out-of-range case is settled under C4. -/
theorem C5_order (text : String) (start : Date) (evs : List CalEvent)
    (h : buildEvents text start = some evs) (hne : findDays text.data ≠ []) :
    evs.map (fun e => e.summary)
      = (findDays text.data).map
          (fun p => "Day " ++ toString (digitsToNat p.1) ++ " Itinerary") ∧
    evs.map (fun e => some e.dtstart)
      = (findDays text.data).map
          (fun p => addTimedelta start ((digitsToNat p.1 : Int) - 1)) := by
  rw [buildEvents_of_matches text start hne] at h
  exact buildDayEvents_maps start _ _ h

/-- C5 witness on the out-of-order spec example: the Day 2 event comes
first, dated startDate + 1, then the Day 1 event, dated startDate. -/
theorem C5_order_witness :
    ([⟨"Day 2 Itinerary", "B.", ⟨2024, 6, 2⟩, ⟨2024, 6, 2⟩⟩,
      ⟨"Day 1 Itinerary", "A.", ⟨2024, 6, 1⟩, ⟨2024, 6, 1⟩⟩] : List CalEvent).map
        (fun e => e.summary)
      = (findDays "Day 2: B. Day 1: A.".data).map
          (fun p => "Day " ++ toString (digitsToNat p.1) ++ " Itinerary") ∧
    ([⟨"Day 2 Itinerary", "B.", ⟨2024, 6, 2⟩, ⟨2024, 6, 2⟩⟩,
      ⟨"Day 1 Itinerary", "A.", ⟨2024, 6, 1⟩, ⟨2024, 6, 1⟩⟩] : List CalEvent).map
        (fun e => some e.dtstart)
      = (findDays "Day 2: B. Day 1: A.".data).map
          (fun p => addTimedelta ⟨2024, 6, 1⟩ ((digitsToNat p.1 : Int) - 1)) :=
  C5_order "Day 2: B. Day 1: A." ⟨2024, 6, 1⟩
    [⟨"Day 2 Itinerary", "B.", ⟨2024, 6, 2⟩, ⟨2024, 6, 2⟩⟩,
     ⟨"Day 1 Itinerary", "A.", ⟨2024, 6, 1⟩, ⟨2024, 6, 1⟩⟩]
    (by decide) (by decide)

/-- C6: the conversion is deterministic: two calls with equal text, equal
start date and equal (frozen) generation timestamp return equal byte
streams. In this embedding the wall clock is the only external input and is
passed explicitly, so the whole converter is a pure function of the three
arguments. -/
theorem C6_deterministic (t1 t2 : String) (d1 d2 : Date) (n1 n2 : List Char)
    (ht : t1 = t2) (hd : d1 = d2) (hn : n1 = n2) :
    generate_ics_content t1 d1 n1 = generate_ics_content t2 d2 n2 := by
  rw [ht, hd, hn]

/-- C6 witness at a concrete call. -/
theorem C6_deterministic_witness :
    generate_ics_content "Day 1: x" ⟨2024, 6, 1⟩ "20240601T000000Z".data
      = generate_ics_content "Day 1: x" ⟨2024, 6, 1⟩ "20240601T000000Z".data :=
  C6_deterministic "Day 1: x" "Day 1: x" ⟨2024, 6, 1⟩ ⟨2024, 6, 1⟩
    "20240601T000000Z".data "20240601T000000Z".data rfl rfl rfl

/-- C7: every event of the output, marker-derived or fallback, has its end
date equal to its start date, the single-day all-day span. Stated for
conversions that complete; the out-of-range case is settled under C4. -/
theorem C7_allday (text : String) (start : Date) (evs : List CalEvent)
    (h : buildEvents text start = some evs) :
    ∀ e ∈ evs, e.dtend = e.dtstart := by
  intro e he
  rcases hfd : findDays text.data with _ | ⟨p, rest⟩
  · unfold buildEvents at h
    rw [hfd] at h
    injection h with h
    subst h
    rw [List.mem_singleton.mp he]
    rfl
  · rw [buildEvents_of_matches text start (by rw [hfd]; simp)] at h
    obtain ⟨q, _, hq2⟩ := buildDayEvents_mem start _ _ h e he
    obtain ⟨d, _, hee⟩ := mkDayEvent_some start q.1 q.2 e hq2
    rw [hee]

/-- C7 witness at a concrete event of a concrete output. -/
theorem C7_allday_witness :
    (⟨"Day 2 Itinerary", "B.", ⟨2024, 6, 2⟩, ⟨2024, 6, 2⟩⟩ : CalEvent).dtend
      = (⟨"Day 2 Itinerary", "B.", ⟨2024, 6, 2⟩, ⟨2024, 6, 2⟩⟩ : CalEvent).dtstart :=
  C7_allday "Day 2: B. Day 1: A." ⟨2024, 6, 1⟩
    [⟨"Day 2 Itinerary", "B.", ⟨2024, 6, 2⟩, ⟨2024, 6, 2⟩⟩,
     ⟨"Day 1 Itinerary", "A.", ⟨2024, 6, 1⟩, ⟨2024, 6, 1⟩⟩]
    (by decide) ⟨"Day 2 Itinerary", "B.", ⟨2024, 6, 2⟩, ⟨2024, 6, 2⟩⟩ (by decide)

/-- C9: the date formula has no lower bound on N: a matched marker with day
number 0 yields an event dated one calendar day before the start date, a
date strictly earlier than the start date. -/
theorem C9_day_zero (text : String) (start : Date) (evs : List CalEvent)
    (ds content : List Char)
    (h : buildEvents text start = some evs)
    (hmem : (ds, content) ∈ findDays text.data)
    (hzero : digitsToNat ds = 0)
    (hv : start.isValid = true) :
    ∃ e ∈ evs, e.dtstart = prevDay start ∧ e.dtstart.before start := by
  have hne : findDays text.data ≠ [] := by
    intro hq; rw [hq] at hmem; simp at hmem
  rw [buildEvents_of_matches text start hne] at h
  obtain ⟨i, hi⟩ := List.getElem?_of_mem hmem
  obtain ⟨e, he, hei⟩ := buildDayEvents_get start _ _ h i ds content hi
  obtain ⟨d, hd, hee⟩ := mkDayEvent_some start ds content e he
  rw [hzero] at hd
  have hcomp : addTimedelta start (((0 : Nat) : Int) - 1)
      = if (prevDay start).isValid then some (prevDay start) else none := rfl
  rw [hcomp] at hd
  have hdd : d = prevDay start := by
    by_cases hval : (prevDay start).isValid
    · rw [if_pos hval] at hd; injection hd with hd; exact hd.symm
    · rw [if_neg hval] at hd; exact absurd hd (by simp)
  refine ⟨e, List.getElem?_mem hei, ?_, ?_⟩
  · rw [hee]; exact hdd
  · rw [hee]
    show d.before start
    rw [hdd]
    exact prevDay_before start hv

/-- C9 witness: Day 0 with start date 2024-06-01 gives 2024-05-31. -/
theorem C9_day_zero_witness :
    ∃ e ∈ ([⟨"Day 0 Itinerary", "launch", ⟨2024, 5, 31⟩, ⟨2024, 5, 31⟩⟩] : List CalEvent),
      e.dtstart = prevDay ⟨2024, 6, 1⟩ ∧ e.dtstart.before ⟨2024, 6, 1⟩ :=
  C9_day_zero "Day 0: launch" ⟨2024, 6, 1⟩
    [⟨"Day 0 Itinerary", "launch", ⟨2024, 5, 31⟩, ⟨2024, 5, 31⟩⟩]
    ['0'] "launch".data (by decide) (by decide) (by decide) (by decide)

/-! ### Lemmas for the trailing-marker claim -/

theorem takeWhile_append_stop (p : Char → Bool) (a : List Char) (c : Char) (bs : List Char)
    (hc : p c = false) : ((a ++ c :: bs).takeWhile p) = a.takeWhile p := by
  induction a with
  | nil => simp [List.takeWhile_cons, hc]
  | cons x a ih =>
    by_cases hx : p x
    · simp [List.takeWhile_cons, hx, ih]
    · simp [List.takeWhile_cons, hx]

theorem dropWhile_append_stop (p : Char → Bool) (a : List Char) (c : Char) (bs : List Char)
    (hc : p c = false) : ((a ++ c :: bs).dropWhile p) = a.dropWhile p ++ c :: bs := by
  induction a with
  | nil => simp [List.dropWhile_cons, hc]
  | cons x a ih =>
    by_cases hx : p x
    · simp [List.dropWhile_cons, hx, ih]
    · simp [List.dropWhile_cons, hx]

theorem tryMatch_day_eq_none_iff (t5 : List Char) :
    tryMatch ('D' :: 'a' :: 'y' :: ' ' :: t5) = none ↔
      (t5.takeWhile isAsciiDigit = [] ∨
        (t5.dropWhile isAsciiDigit).takeWhile isSepChar = []) := by
  have hc : ('D' : Char) = 'D' ∧ ('a' : Char) = 'a' ∧ ('y' : Char) = 'y' ∧ (' ' : Char) = ' ' :=
    ⟨rfl, rfl, rfl, rfl⟩
  simp only [tryMatch, if_pos hc]
  by_cases h1 : (t5.takeWhile isAsciiDigit).isEmpty
  · rw [if_pos h1]
    rw [List.isEmpty_iff] at h1
    simp [h1]
  · rw [if_neg h1]
    rw [List.isEmpty_iff] at h1
    by_cases h2 : ((t5.dropWhile isAsciiDigit).takeWhile isSepChar).isEmpty
    · rw [if_pos h2]
      rw [List.isEmpty_iff] at h2
      simp [h1, h2]
    · rw [if_neg h2]
      rw [List.isEmpty_iff] at h2
      simp [h1, h2]

theorem tryMatch_marker_no_sep (ds rest : List Char)
    (hdig : ∀ c ∈ ds, isAsciiDigit c = true)
    (hrest : rest = [] ∨
      ∃ c rs, rest = c :: rs ∧ isAsciiDigit c = false ∧ isSepChar c = false) :
    tryMatch ('D' :: 'a' :: 'y' :: ' ' :: (ds ++ rest)) = none := by
  rw [tryMatch_day_eq_none_iff]
  right
  have hds : ds.dropWhile isAsciiDigit = [] :=
    List.dropWhile_eq_nil_iff.mpr (fun x hx => hdig x hx)
  rcases hrest with hr | ⟨c, rs, hr, hcd, hcs⟩
  · subst hr
    rw [List.append_nil, hds]
    rfl
  · subst hr
    rw [dropWhile_append_stop isAsciiDigit ds c rs hcd, hds]
    simp [List.takeWhile_cons, hcs]

theorem tryMatch_not_D (c : Char) (cs : List Char) (h : ¬ c = 'D') :
    tryMatch (c :: cs) = none := by
  match cs with
  | [] => rfl
  | [c2] => rfl
  | [c2, c3] => rfl
  | c2 :: c3 :: c4 :: rest =>
    simp only [tryMatch]
    rw [if_neg]
    intro hc
    exact h hc.1

theorem tryMatch_append_marker (t mid : List Char)
    (hne : t ≠ []) (h : tryMatch t = none) :
    tryMatch (t ++ 'D' :: mid) = none := by
  match t, hne with
  | [c1], _ =>
    match mid with
    | [] => rfl
    | [m1] => rfl
    | m1 :: m2 :: ms =>
      simp only [List.cons_append, List.nil_append, tryMatch]
      rw [if_neg]
      intro hc
      exact absurd hc.2.1 (by decide)
  | [c1, c2], _ =>
    match mid with
    | [] => rfl
    | m1 :: ms =>
      simp only [List.cons_append, List.nil_append, tryMatch]
      rw [if_neg]
      intro hc
      exact absurd hc.2.2.1 (by decide)
  | [c1, c2, c3], _ =>
    simp only [List.cons_append, List.nil_append, tryMatch]
    rw [if_neg]
    intro hc
    exact absurd hc.2.2.2 (by decide)
  | c1 :: c2 :: c3 :: c4 :: t5, _ =>
    by_cases hc : c1 = 'D' ∧ c2 = 'a' ∧ c3 = 'y' ∧ c4 = ' '
    · obtain ⟨e1, e2, e3, e4⟩ := hc
      subst e1; subst e2; subst e3; subst e4
      rw [tryMatch_day_eq_none_iff] at h
      simp only [List.cons_append]
      rw [tryMatch_day_eq_none_iff]
      rcases h with h | h
      · left
        rw [takeWhile_append_stop isAsciiDigit t5 'D' mid (by decide)]
        exact h
      · right
        rw [dropWhile_append_stop isAsciiDigit t5 'D' mid (by decide),
            takeWhile_append_stop isSepChar (t5.dropWhile isAsciiDigit) 'D' mid (by decide)]
        exact h
    · simp only [List.cons_append, tryMatch, if_neg hc]

theorem findDaysAux_nil_of_none :
    ∀ (fuel : Nat) (s : List Char), (∀ t, t <:+ s → tryMatch t = none) →
      findDaysAux fuel s = [] := by
  intro fuel
  induction fuel with
  | zero => intro s _; rfl
  | succ n ih =>
    intro s hs
    match s with
    | [] => rfl
    | c :: cs =>
      have hhead : tryMatch (c :: cs) = none := hs (c :: cs) List.suffix_rfl
      simp only [findDaysAux, hhead]
      exact ih cs (fun t ht => hs t (ht.trans (List.suffix_cons c cs)))

theorem tryMatch_none_of_findDaysAux_nil :
    ∀ (fuel : Nat) (s : List Char), s.length ≤ fuel → findDaysAux fuel s = [] →
      ∀ t, t <:+ s → tryMatch t = none := by
  intro fuel
  induction fuel with
  | zero =>
    intro s hlen _ t ht
    have : s = [] := List.length_eq_zero.mp (Nat.le_zero.mp hlen)
    subst this
    rw [List.suffix_nil.mp ht]
    rfl
  | succ n ih =>
    intro s hlen hnil t ht
    match s with
    | [] =>
      rw [List.suffix_nil.mp ht]
      rfl
    | c :: cs =>
      rcases hm : tryMatch (c :: cs) with _ | ⟨ds, content, rest⟩
      · rcases List.suffix_cons_iff.mp ht with ht' | ht'
        · rw [ht']; exact hm
        · simp only [findDaysAux, hm] at hnil
          exact ih cs (by simpa using hlen) hnil t ht'
      · simp only [findDaysAux, hm] at hnil
        exact absurd hnil (List.cons_ne_nil _ _)

theorem suffix_append_cases :
    ∀ (a : List Char) (b t : List Char), t <:+ a ++ b →
      t <:+ b ∨ ∃ u, u <:+ a ∧ t = u ++ b := by
  intro a
  induction a with
  | nil => intro b t ht; exact Or.inl (by simpa using ht)
  | cons c a ih =>
    intro b t ht
    rcases List.suffix_cons_iff.mp ht with ht' | ht'
    · exact Or.inr ⟨c :: a, List.suffix_rfl, by simpa using ht'⟩
    · rcases ih b t ht' with h | ⟨u, hu, hteq⟩
      · exact Or.inl h
      · exact Or.inr ⟨u, hu.trans (List.suffix_cons c a), hteq⟩

theorem findDays_trailing_marker (pre ds : List Char)
    (hdig : ∀ c ∈ ds, isAsciiDigit c = true)
    (hpre : findDays pre = []) :
    findDays (pre ++ 'D' :: 'a' :: 'y' :: ' ' :: ds) = [] := by
  apply findDaysAux_nil_of_none
  intro t ht
  have hpre' : ∀ u, u <:+ pre → tryMatch u = none :=
    tryMatch_none_of_findDaysAux_nil pre.length pre Nat.le.refl hpre
  have hmidmatch : tryMatch ('D' :: 'a' :: 'y' :: ' ' :: ds) = none := by
    have := tryMatch_marker_no_sep ds [] hdig (Or.inl rfl)
    simpa using this
  rcases suffix_append_cases pre ('D' :: 'a' :: 'y' :: ' ' :: ds) t ht with hin | ⟨u, hu, hteq⟩
  · -- suffix of the trailing marker text itself
    rcases List.suffix_cons_iff.mp hin with he | hin
    · rw [he]; exact hmidmatch
    rcases List.suffix_cons_iff.mp hin with he | hin
    · rw [he]; exact tryMatch_not_D 'a' _ (by decide)
    rcases List.suffix_cons_iff.mp hin with he | hin
    · rw [he]; exact tryMatch_not_D 'y' _ (by decide)
    rcases List.suffix_cons_iff.mp hin with he | hin
    · rw [he]; exact tryMatch_not_D ' ' _ (by decide)
    · -- suffix of the digit run
      match t, hin with
      | [], _ => rfl
      | c :: rs, hin =>
        have hcds : c ∈ ds := hin.subset (List.mem_cons_self c rs)
        have : isAsciiDigit c = true := hdig c hcds
        refine tryMatch_not_D c rs ?_
        intro he
        rw [he] at this
        exact absurd this (by decide)
  · rcases heu : u with _ | ⟨x, u2⟩
    · subst heu
      rw [hteq, List.nil_append]
      exact hmidmatch
    · rw [hteq]
      exact tryMatch_append_marker u _ (by rw [heu]; simp) (hpre' u hu)

/-- C10: an occurrence of the literal Day, a space and a digit run that is
not followed by at least one colon or whitespace character is not a day
marker: no match starts at it; and when such an occurrence sits at the very
end of the input and the text before it has no match of its own, the whole
input takes the single-event Travel Itinerary fallback. -/
theorem C10_no_sep_no_marker (pre ds rest : List Char) (start : Date)
    (hne : ds ≠ [])
    (hdig : ∀ c ∈ ds, isAsciiDigit c = true)
    (hrest : rest = [] ∨
      ∃ c rs, rest = c :: rs ∧ isAsciiDigit c = false ∧ isSepChar c = false)
    (hpre : findDays pre = []) :
    tryMatch ('D' :: 'a' :: 'y' :: ' ' :: (ds ++ rest)) = none ∧
    findDays (pre ++ 'D' :: 'a' :: 'y' :: ' ' :: ds) = [] ∧
    buildEvents (String.mk (pre ++ 'D' :: 'a' :: 'y' :: ' ' :: ds)) start
      = some [⟨"Travel Itinerary", String.mk (pre ++ 'D' :: 'a' :: 'y' :: ' ' :: ds),
              start, start⟩] := by
  refine ⟨tryMatch_marker_no_sep ds rest hdig hrest,
          findDays_trailing_marker pre ds hdig hpre, ?_⟩
  unfold buildEvents
  have hfd : (String.mk (pre ++ 'D' :: 'a' :: 'y' :: ' ' :: ds)).data
      = pre ++ 'D' :: 'a' :: 'y' :: ' ' :: ds := rfl
  rw [hfd, findDays_trailing_marker pre ds hdig hpre]
  rfl

/-- C10 witness: the text Visit museums. followed by Day 3 at the very end
yields no match and falls back to the single Travel Itinerary event. -/
theorem C10_no_sep_no_marker_witness :
    tryMatch ('D' :: 'a' :: 'y' :: ' ' :: (['3'] ++ [])) = none ∧
    findDays ("Visit museums. ".data ++ 'D' :: 'a' :: 'y' :: ' ' :: ['3']) = [] ∧
    buildEvents (String.mk ("Visit museums. ".data ++ 'D' :: 'a' :: 'y' :: ' ' :: ['3']))
        ⟨2024, 6, 1⟩
      = some [⟨"Travel Itinerary",
              String.mk ("Visit museums. ".data ++ 'D' :: 'a' :: 'y' :: ' ' :: ['3']),
              ⟨2024, 6, 1⟩, ⟨2024, 6, 1⟩⟩] :=
  C10_no_sep_no_marker "Visit museums. ".data ['3'] [] ⟨2024, 6, 1⟩
    (by decide) (by decide) (Or.inl rfl) (by decide)

/-! ### Escaping and folding lemmas for the round-trip claim -/

theorem unescapeText_escapeChar (c : Char) (r : List Char) :
    unescapeText (escapeTextChar c ++ r) = c :: unescapeText r := by
  unfold escapeTextChar
  split_ifs with h1 h2 h3 h4
  · subst h1; rfl
  · subst h2; rfl
  · subst h3; rfl
  · subst h4; rfl
  · rcases r with _ | ⟨r1, rs⟩
    · rfl
    · simp only [List.singleton_append]
      rw [unescapeText]
      rw [if_neg h1]

theorem unescapeText_escapeText_append (s r : List Char) :
    unescapeText (escapeText s ++ r) = s ++ unescapeText r := by
  induction s with
  | nil => simp [escapeText]
  | cons c s ih =>
    unfold escapeText
    simp only [List.map_cons, List.flatten_cons, List.append_assoc]
    rw [unescapeText_escapeChar]
    unfold escapeText at ih
    rw [ih]
    rfl

theorem unescapeText_escapeText (s : List Char) : unescapeText (escapeText s) = s := by
  have h := unescapeText_escapeText_append s []
  rw [List.append_nil] at h
  rw [show unescapeText ([] : List Char) = [] from rfl] at h
  rw [List.append_nil] at h
  exact h

theorem nl_not_mem_escapeText (s : List Char) : '\n' ∉ escapeText s := by
  intro hc
  unfold escapeText at hc
  rw [List.mem_flatten] at hc
  obtain ⟨l, hl, hcl⟩ := hc
  rw [List.mem_map] at hl
  obtain ⟨x, _, hx⟩ := hl
  subst hx
  unfold escapeTextChar at hcl
  split_ifs at hcl with h1 h2 h3 h4 <;> simp at hcl
  exact h4 hcl.symm

theorem unfoldChars_step (x y : Char) (cs : List Char) (h : ¬(x = '\r' ∧ y = '\n')) :
    unfoldChars (x :: y :: cs) = x :: unfoldChars (y :: cs) := by
  rcases cs with _ | ⟨c3, cs3⟩
  · rfl
  · rw [unfoldChars]
    rw [if_neg (fun hc => h ⟨hc.1, hc.2.1⟩)]

theorem unfoldChars_crlf (rest : List Char)
    (hrest : ∀ c cs, rest = c :: cs → ¬(c = ' ' ∨ c = '\t')) :
    unfoldChars ('\r' :: '\n' :: rest) = '\r' :: '\n' :: unfoldChars rest := by
  rcases rest with _ | ⟨c, cs⟩
  · rfl
  · have hc := hrest c cs rfl
    rw [unfoldChars]
    rw [if_neg (fun hcond => hc hcond.2.2)]
    rw [unfoldChars_step '\n' c cs (fun hcond => absurd hcond.1 (by decide))]

theorem unfold_append_crlf (a rest : List Char)
    (ha : '\n' ∉ a)
    (hrest : ∀ c cs, rest = c :: cs → ¬(c = ' ' ∨ c = '\t')) :
    unfoldChars (a ++ '\r' :: '\n' :: rest) = a ++ '\r' :: '\n' :: unfoldChars rest := by
  induction a with
  | nil => simpa using unfoldChars_crlf rest hrest
  | cons x a ih =>
    have hxa : '\n' ∉ a := fun hmem => ha (List.mem_cons_of_mem _ hmem)
    rcases a with _ | ⟨y, a2⟩
    · simp only [List.cons_append, List.nil_append]
      rw [unfoldChars_step x '\r' ('\n' :: rest) (fun hc => absurd hc.2 (by decide))]
      rw [unfoldChars_crlf rest hrest]
    · have hy : y ≠ '\n' := fun hyy => hxa (hyy ▸ List.mem_cons_self y a2)
      simp only [List.cons_append] at ih ⊢
      rw [unfoldChars_step x y (a2 ++ '\r' :: '\n' :: rest) (fun hc => hy hc.2)]
      rw [ih hxa]

theorem unfold_append_foldsep (a b : List Char) (ha : '\n' ∉ a) :
    unfoldChars (a ++ '\r' :: '\n' :: ' ' :: b) = a ++ unfoldChars b := by
  induction a with
  | nil =>
    simp only [List.nil_append]
    rw [unfoldChars]
    rw [if_pos ⟨rfl, rfl, Or.inl rfl⟩]
  | cons x a ih =>
    have hxa : '\n' ∉ a := fun hmem => ha (List.mem_cons_of_mem _ hmem)
    rcases a with _ | ⟨y, a2⟩
    · simp only [List.cons_append, List.nil_append]
      rw [unfoldChars_step x '\r' ('\n' :: ' ' :: b) (fun hc => absurd hc.2 (by decide))]
      rw [show unfoldChars ('\r' :: '\n' :: ' ' :: b) = unfoldChars b from by
        rw [unfoldChars]; rw [if_pos ⟨rfl, rfl, Or.inl rfl⟩]]
    · have hy : y ≠ '\n' := fun hyy => hxa (hyy ▸ List.mem_cons_self y a2)
      simp only [List.cons_append] at ih ⊢
      rw [unfoldChars_step x y (a2 ++ '\r' :: '\n' :: ' ' :: b) (fun hc => hy hc.2)]
      rw [ih hxa]

theorem unfold_foldLine_crlf :
    ∀ (n : Nat) (a rest : List Char), a.length ≤ n → '\n' ∉ a →
      (∀ c cs, rest = c :: cs → ¬(c = ' ' ∨ c = '\t')) →
      unfoldChars (foldLine a ++ '\r' :: '\n' :: rest)
        = a ++ '\r' :: '\n' :: unfoldChars rest := by
  intro n
  induction n with
  | zero =>
    intro a rest hlen ha hrest
    have haz : a = [] := List.length_eq_zero.mp (Nat.le_zero.mp hlen)
    subst haz
    rw [show foldLine [] = [] from by rw [foldLine]; rfl]
    simpa using unfoldChars_crlf rest hrest
  | succ n ih =>
    intro a rest hlen ha hrest
    by_cases hle : a.length ≤ 74
    · rw [show foldLine a = a from by rw [foldLine]; rw [if_pos hle]]
      exact unfold_append_crlf a rest ha hrest
    · rw [show foldLine a = a.take 74 ++ '\r' :: '\n' :: ' ' :: foldLine (a.drop 74) from by
        rw [foldLine]; rw [if_neg hle]]
      rw [List.append_assoc]
      simp only [List.cons_append]
      have htake : '\n' ∉ a.take 74 := fun hmem => ha (List.mem_of_mem_take hmem)
      have hdrop : '\n' ∉ a.drop 74 := fun hmem => ha (List.mem_of_mem_drop hmem)
      rw [unfold_append_foldsep (a.take 74) _ htake]
      rw [ih (a.drop 74) rest (by simp; omega) hdrop hrest]
      rw [← List.append_assoc, List.take_append_drop]

theorem foldLine_cons (c : Char) (l : List Char) :
    ∃ z, foldLine (c :: l) = c :: z := by
  rw [foldLine]
  by_cases h : (c :: l).length ≤ 74
  · rw [if_pos h]
    exact ⟨l, rfl⟩
  · rw [if_neg h]
    refine ⟨l.take 73 ++ '\r' :: '\n' :: ' ' :: foldLine ((c :: l).drop 74), ?_⟩
    rw [show (74 : Nat) = 73 + 1 from rfl, List.take_succ_cons]
    rfl

theorem renderLines_head_not_ws (ls : List (List Char))
    (h : ∀ l ∈ ls, ∀ c cs, l = c :: cs → ¬(c = ' ' ∨ c = '\t')) :
    ∀ c cs, renderLines ls = c :: cs → ¬(c = ' ' ∨ c = '\t') := by
  intro c cs hr
  match ls with
  | [] => exact absurd hr (by simp [renderLines])
  | l :: ls2 =>
    have hrw : renderLines (l :: ls2) = foldLine l ++ '\r' :: '\n' :: renderLines ls2 := by
      simp [renderLines, crlf, List.append_assoc]
    rw [hrw] at hr
    match l with
    | [] =>
      rw [show foldLine [] = [] from by rw [foldLine]; rfl] at hr
      simp only [List.nil_append] at hr
      injection hr with h1 _
      subst h1
      decide
    | x :: l2 =>
      obtain ⟨z, hz⟩ := foldLine_cons x l2
      rw [hz] at hr
      simp only [List.cons_append] at hr
      injection hr with h1 _
      subst h1
      exact h (x :: l2) (List.mem_cons_self _ _) x l2 rfl

theorem unfold_renderLines (ls : List (List Char))
    (hnl : ∀ l ∈ ls, '\n' ∉ l)
    (hhead : ∀ l ∈ ls, ∀ c cs, l = c :: cs → ¬(c = ' ' ∨ c = '\t')) :
    unfoldChars (renderLines ls) = joinedLines ls := by
  induction ls with
  | nil => rfl
  | cons l ls2 ih =>
    have hrw : renderLines (l :: ls2) = foldLine l ++ '\r' :: '\n' :: renderLines ls2 := by
      simp [renderLines, crlf, List.append_assoc]
    rw [hrw]
    rw [unfold_foldLine_crlf l.length l (renderLines ls2) Nat.le.refl
        (hnl l (List.mem_cons_self _ _))
        (renderLines_head_not_ws ls2 (fun q hq => hhead q (List.mem_cons_of_mem _ hq)))]
    rw [ih (fun q hq => hnl q (List.mem_cons_of_mem _ hq))
          (fun q hq => hhead q (List.mem_cons_of_mem _ hq))]
    simp [joinedLines, crlf, List.append_assoc]

theorem splitLinesAux_line (l : List Char) :
    ∀ (acc rest : List Char), '\n' ∉ l →
      splitLinesAux acc (l ++ '\r' :: '\n' :: rest)
        = (acc.reverse ++ l) :: splitLinesAux [] rest := by
  induction l with
  | nil =>
    intro acc rest _
    simp only [List.nil_append]
    simp only [splitLinesAux]
    rw [if_pos ⟨trivial, trivial⟩]
    simp
  | cons x l ih =>
    intro acc rest hnl
    have hnl2 : '\n' ∉ l := fun hmem => hnl (List.mem_cons_of_mem _ hmem)
    rcases l with _ | ⟨y, l2⟩
    · simp only [List.nil_append, List.cons_append]
      simp only [splitLinesAux]
      rw [if_neg (fun hc => absurd hc.2 (by decide))]
      rw [if_pos ⟨trivial, trivial⟩]
      simp
    · have hy : y ≠ '\n' := fun hyy => hnl2 (hyy ▸ List.mem_cons_self y l2)
      simp only [List.cons_append] at ih ⊢
      simp only [splitLinesAux]
      rw [if_neg (fun hc => hy hc.2)]
      rw [ih (x :: acc) rest hnl2]
      simp

theorem splitLines_joined (ls : List (List Char)) (h : ∀ l ∈ ls, '\n' ∉ l) :
    splitLinesAux [] (joinedLines ls) = ls := by
  induction ls with
  | nil => rfl
  | cons l ls2 ih =>
    have hrw : joinedLines (l :: ls2) = l ++ '\r' :: '\n' :: joinedLines ls2 := by
      simp [joinedLines, crlf, List.append_assoc]
    rw [hrw, splitLinesAux_line l [] (joinedLines ls2) (h l (List.mem_cons_self _ _))]
    rw [ih (fun q hq => h q (List.mem_cons_of_mem _ hq))]
    simp

theorem matchPfx_append (p r : List Char) : matchPfx p (p ++ r) = some r := by
  induction p with
  | nil => rfl
  | cons c p ih =>
    simp only [List.cons_append, matchPfx]
    rw [if_pos trivial]
    exact ih

theorem isAsciiDigit_digitChar (k : Nat) : isAsciiDigit (digitChar k) = true := by
  unfold digitChar
  split <;> decide

theorem digitChar_ne_nl (k : Nat) : digitChar k ≠ '\n' := by
  unfold digitChar
  split <;> decide

theorem charVal_digitChar (k : Nat) (hk : k < 10) : charVal (digitChar k) = k := by
  interval_cases k <;> decide

theorem nl_not_mem_dateChars (d : Date) : '\n' ∉ dateChars d := by
  intro h
  unfold dateChars at h
  simp only [List.mem_cons, List.not_mem_nil, or_false] at h
  rcases h with h | h | h | h | h | h | h | h <;> exact digitChar_ne_nl _ h.symm

theorem daysInMonth_le (y m : Nat) : daysInMonth y m ≤ 31 := by
  unfold daysInMonth
  split_ifs <;> omega

theorem date_bounds (d : Date) (h : d.isValid = true) :
    d.year ≤ 9999 ∧ d.month ≤ 99 ∧ d.day ≤ 99 := by
  unfold Date.isValid at h
  simp only [Bool.and_eq_true, decide_eq_true_eq] at h
  have := daysInMonth_le d.year d.month
  omega

theorem parseDate8_dateChars (d : Date) (hy : d.year ≤ 9999) (hm : d.month ≤ 99)
    (hd : d.day ≤ 99) : parseDate8 (dateChars d) = some d := by
  obtain ⟨y, m, dd⟩ := d
  simp only at hy hm hd
  simp only [dateChars]
  simp only [parseDate8]
  rw [if_pos (by simp [isAsciiDigit_digitChar])]
  have h1 := charVal_digitChar (y / 1000 % 10) (Nat.mod_lt _ (by norm_num))
  have h2 := charVal_digitChar (y / 100 % 10) (Nat.mod_lt _ (by norm_num))
  have h3 := charVal_digitChar (y / 10 % 10) (Nat.mod_lt _ (by norm_num))
  have h4 := charVal_digitChar (y % 10) (Nat.mod_lt _ (by norm_num))
  have h5 := charVal_digitChar (m / 10 % 10) (Nat.mod_lt _ (by norm_num))
  have h6 := charVal_digitChar (m % 10) (Nat.mod_lt _ (by norm_num))
  have h7 := charVal_digitChar (dd / 10 % 10) (Nat.mod_lt _ (by norm_num))
  have h8 := charVal_digitChar (dd % 10) (Nat.mod_lt _ (by norm_num))
  simp only [Option.some.injEq, Date.mk.injEq]
  rw [h1, h2, h3, h4, h5, h6, h7, h8]
  refine ⟨?_, ?_, ?_⟩ <;> omega

theorem addTimedelta_valid (d0 : Date) (k : Int) (d : Date)
    (h : addTimedelta d0 k = some d) : d.isValid = true := by
  simp only [addTimedelta] at h
  by_cases hk : 0 ≤ k
  · rw [if_pos hk] at h
    by_cases hv : (addDaysNat d0 k.toNat).isValid = true
    · rw [if_pos hv] at h
      injection h with h
      rw [← h]
      exact hv
    · rw [if_neg hv] at h
      exact absurd h (by simp)
  · rw [if_neg hk] at h
    by_cases hv : (subDaysNat d0 (-k).toNat).isValid = true
    · rw [if_pos hv] at h
      injection h with h
      rw [← h]
      exact hv
    · rw [if_neg hv] at h
      exact absurd h (by simp)

theorem buildEvents_valid (text : String) (start : Date) (evs : List CalEvent)
    (h : buildEvents text start = some evs) (hstart : start.isValid = true) :
    ∀ e ∈ evs, e.dtstart.isValid = true ∧ e.dtend.isValid = true := by
  intro e he
  rcases hfd : findDays text.data with _ | ⟨p, rest⟩
  · unfold buildEvents at h
    rw [hfd] at h
    injection h with h
    subst h
    rw [List.mem_singleton.mp he]
    exact ⟨hstart, hstart⟩
  · rw [buildEvents_of_matches text start (by rw [hfd]; simp)] at h
    obtain ⟨q, _, hq2⟩ := buildDayEvents_mem start _ _ h e he
    obtain ⟨d, hd, hee⟩ := mkDayEvent_some start q.1 q.2 e hq2
    have hdval := addTimedelta_valid start _ d hd
    rw [hee]
    exact ⟨hdval, hdval⟩

theorem head_cond_of_cons (b : Char) (t : List Char) (hb : ¬(b = ' ' ∨ b = '\t')) :
    ∀ c cs, b :: t = c :: cs → ¬(c = ' ' ∨ c = '\t') := by
  intro c cs h
  injection h with h1 _
  subst h1
  exact hb

theorem eventLines_ok (now : List Char) (e : CalEvent) (hnow : '\n' ∉ now) :
    ∀ l ∈ eventLines now e,
      ('\n' ∉ l) ∧ (∀ c cs, l = c :: cs → ¬(c = ' ' ∨ c = '\t')) := by
  intro l hl
  unfold eventLines at hl
  simp only [List.mem_cons, List.not_mem_nil, or_false] at hl
  rcases hl with rfl | rfl | rfl | rfl | rfl | rfl | rfl
  · exact ⟨by decide, head_cond_of_cons _ _ (by decide)⟩
  · refine ⟨?_, head_cond_of_cons _ _ (by decide)⟩
    intro hm
    have hm2 : '\n' ∈ "SUMMARY:".data ++ escapeText e.summary.data := hm
    rcases List.mem_append.mp hm2 with hm3 | hm3
    · exact absurd hm3 (by decide)
    · exact nl_not_mem_escapeText _ hm3
  · refine ⟨?_, head_cond_of_cons _ _ (by decide)⟩
    intro hm
    have hm2 : '\n' ∈ "DESCRIPTION:".data ++ escapeText e.description.data := hm
    rcases List.mem_append.mp hm2 with hm3 | hm3
    · exact absurd hm3 (by decide)
    · exact nl_not_mem_escapeText _ hm3
  · refine ⟨?_, head_cond_of_cons _ _ (by decide)⟩
    intro hm
    have hm2 : '\n' ∈ "DTSTART;VALUE=DATE:".data ++ dateChars e.dtstart := hm
    rcases List.mem_append.mp hm2 with hm3 | hm3
    · exact absurd hm3 (by decide)
    · exact nl_not_mem_dateChars _ hm3
  · refine ⟨?_, head_cond_of_cons _ _ (by decide)⟩
    intro hm
    have hm2 : '\n' ∈ "DTEND;VALUE=DATE:".data ++ dateChars e.dtend := hm
    rcases List.mem_append.mp hm2 with hm3 | hm3
    · exact absurd hm3 (by decide)
    · exact nl_not_mem_dateChars _ hm3
  · refine ⟨?_, head_cond_of_cons _ _ (by decide)⟩
    intro hm
    have hm2 : '\n' ∈ "DTSTAMP:".data ++ now := hm
    rcases List.mem_append.mp hm2 with hm3 | hm3
    · exact absurd hm3 (by decide)
    · exact hnow hm3
  · exact ⟨by decide, head_cond_of_cons _ _ (by decide)⟩

theorem docLines_ok (now : List Char) (evs : List CalEvent) (hnow : '\n' ∉ now) :
    ∀ l ∈ docLines now evs,
      ('\n' ∉ l) ∧ (∀ c cs, l = c :: cs → ¬(c = ' ' ∨ c = '\t')) := by
  intro l hl
  unfold docLines at hl
  simp only [List.mem_cons, List.mem_append, List.not_mem_nil, or_false] at hl
  rcases hl with rfl | rfl | rfl | hl | rfl
  · exact ⟨by decide, head_cond_of_cons _ _ (by decide)⟩
  · exact ⟨by decide, head_cond_of_cons _ _ (by decide)⟩
  · exact ⟨by decide, head_cond_of_cons _ _ (by decide)⟩
  · rw [List.mem_flatten] at hl
    obtain ⟨blk, hblk, hlblk⟩ := hl
    rw [List.mem_map] at hblk
    obtain ⟨e, _, hbe⟩ := hblk
    subst hbe
    exact eventLines_ok now e hnow l hlblk
  · exact ⟨by decide, head_cond_of_cons _ _ (by decide)⟩

theorem parseEventsAux_blocks (now : List Char) :
    ∀ evs : List CalEvent,
      (∀ e ∈ evs, e.dtstart.isValid = true ∧ e.dtend.isValid = true) →
      parseEventsAux ((evs.map (eventLines now)).flatten ++ ["END:VCALENDAR".data])
        = some (evs.map (fun e =>
            (⟨e.summary.data, e.description.data, e.dtstart, e.dtend⟩ : ParsedEvent))) := by
  intro evs
  induction evs with
  | nil => intro _; rfl
  | cons e evs2 ih =>
    intro hval
    obtain ⟨hs, he2⟩ := hval e (List.mem_cons_self _ _)
    obtain ⟨hby, hbm, hbd⟩ := date_bounds e.dtstart hs
    obtain ⟨hey, hem, hed⟩ := date_bounds e.dtend he2
    have hst := parseDate8_dateChars e.dtstart hby hbm hbd
    have hen := parseDate8_dateChars e.dtend hey hem hed
    have hihr := ih (fun q hq => hval q (List.mem_cons_of_mem _ hq))
    rw [List.map_cons, List.flatten_cons, List.append_assoc]
    simp only [eventLines, List.cons_append, List.nil_append]
    simp [parseEventsAux, matchPfx, hst, hen, hihr, unescapeText_escapeText]

/-- C8: round-trip through the output byte stream: the serialized document
(with the spec-modelled escaping and line folding, the icalendar library
being outside src), read back by a standard-compliant reader that unfolds,
splits lines, and un-escapes, yields exactly the events that were supplied,
with the same summaries, descriptions and dates, in the same order. The
timestamp value must itself hold no raw newline. -/
theorem C8_roundtrip (text : String) (start : Date) (now : List Char) (evs : List CalEvent)
    (h : buildEvents text start = some evs)
    (hstart : start.isValid = true)
    (hnow : '\n' ∉ now) :
    generate_ics_content text start now = some (serializeCal now evs) ∧
    parseCalChars (serializeCal now evs)
      = some (evs.map (fun e =>
          (⟨e.summary.data, e.description.data, e.dtstart, e.dtend⟩ : ParsedEvent))) := by
  constructor
  · unfold generate_ics_content
    rw [h]
    rfl
  · unfold parseCalChars serializeCal
    rw [unfold_renderLines (docLines now evs)
        (fun l hl => (docLines_ok now evs hnow l hl).1)
        (fun l hl => (docLines_ok now evs hnow l hl).2)]
    rw [splitLines_joined (docLines now evs)
        (fun l hl => (docLines_ok now evs hnow l hl).1)]
    simp only [docLines]
    rw [if_pos ⟨trivial, trivial, trivial⟩]
    exact parseEventsAux_blocks now evs (buildEvents_valid text start evs h hstart)

/-- C8 witness on a description holding a comma, a semicolon and a newline. -/
theorem C8_roundtrip_witness :
    generate_ics_content "Day 1: Go, eat; rest\nfun" ⟨2024, 6, 1⟩ "20240601T120000".data
      = some (serializeCal "20240601T120000".data
          [⟨"Day 1 Itinerary", "Go, eat; rest\nfun", ⟨2024, 6, 1⟩, ⟨2024, 6, 1⟩⟩]) ∧
    parseCalChars (serializeCal "20240601T120000".data
        [⟨"Day 1 Itinerary", "Go, eat; rest\nfun", ⟨2024, 6, 1⟩, ⟨2024, 6, 1⟩⟩])
      = some (([⟨"Day 1 Itinerary", "Go, eat; rest\nfun", ⟨2024, 6, 1⟩, ⟨2024, 6, 1⟩⟩]
            : List CalEvent).map
          (fun e => (⟨e.summary.data, e.description.data, e.dtstart, e.dtend⟩ : ParsedEvent))) :=
  C8_roundtrip "Day 1: Go, eat; rest\nfun" ⟨2024, 6, 1⟩ "20240601T120000".data
    [⟨"Day 1 Itinerary", "Go, eat; rest\nfun", ⟨2024, 6, 1⟩, ⟨2024, 6, 1⟩⟩]
    (by decide) (by decide) (by decide)

end TravelIcs
